import Mathlib

/-!
Shallow embedding of the rats card-game server (`ratsserver.c`) and proofs of
the specification claims about it.  Pure functions of the C source are
translated into Lean functions; the concurrent registry and admission
controller are modelled as explicit transition systems whose atomic steps are
the source's mutex-protected critical sections; the referee's blocking reads
are modelled by per-seat input scripts (a `read` failure is an exhausted
script).
-/

set_option maxRecDepth 10000

namespace Rats

/-! ## Card model (rank_value, is_valid_rank, is_valid_suit, parse_card_token) -/

abbrev Card := Char × Char

abbrev Hand := List Card

abbrev Line := List Char

abbrev Script := List Line

/-- `RANKS_STRING` from the source: `"23456789TJQKA"`. -/
def ranksString : List Char := "23456789TJQKA".toList

/-- `rank_value`: position of the rank character in `RANKS_STRING` plus the
lowest value 2, or `-1` when the character is not a rank. -/
def rank_value (rankChar : Char) : Int :=
  match ranksString.findIdx? (fun c => c == rankChar) with
  | some i => 2 + (i : Int)
  | none => -1

/-- `is_valid_rank`: the character maps to a value other than `-1`. -/
def is_valid_rank (rankChar : Char) : Bool :=
  rank_value rankChar != -1

/-- `is_valid_suit`: one of `'S' 'C' 'D' 'H'`. -/
def is_valid_suit (suitChar : Char) : Bool :=
  suitChar == 'S' || suitChar == 'C' || suitChar == 'D' || suitChar == 'H'

/-- `parse_card_token`: the line must be exactly two characters, a valid rank
then a valid suit. -/
def parse_card_token (line : Line) : Option (Char × Char) :=
  match line with
  | [r, s] => if is_valid_rank r && is_valid_suit s then some (r, s) else none
  | _ => none

/-! ## Hand tracker (has_suit_in_hand, remove_card_from_hand) -/

/-- `has_suit_in_hand`: linear scan over the remaining cards. -/
def has_suit_in_hand (hand : Hand) (suitChar : Char) : Bool :=
  hand.any (fun c => c.2 == suitChar)

/-- `remove_card_from_hand`: find the card, overwrite it with the last card of
the array and drop the last slot (the source's swap-with-last compaction).
Returns `none` when the card is absent (the C function returns `false` and
leaves the hand unchanged). -/
def remove_card_from_hand (hand : Hand) (rankChar suitChar : Char) : Option Hand :=
  match hand.findIdx? (fun c => c.1 == rankChar && c.2 == suitChar) with
  | none => none
  | some i => some ((hand.set i (hand.getLastD ('0', '0'))).dropLast)

lemma findIdx?_isSome_iff {α : Type} (p : α → Bool) (l : List α) :
    ∀ i, (l.findIdx? p i).isSome = true ↔ ∃ x ∈ l, p x = true := by
  induction l with
  | nil => intro i; simp [List.findIdx?]
  | cons a l ih =>
    intro i
    rw [List.findIdx?_cons]
    cases h : p a with
    | true => simp [h]
    | false =>
      rw [if_neg Bool.false_ne_true, ih]
      constructor
      · rintro ⟨x, hx, hpx⟩
        exact ⟨x, List.mem_cons_of_mem a hx, hpx⟩
      · rintro ⟨x, hx, hpx⟩
        rcases List.mem_cons.mp hx with rfl | hx
        · rw [h] at hpx; exact absurd hpx Bool.false_ne_true
        · exact ⟨x, hx, hpx⟩

/-- A card can be removed from the hand exactly when it is present in it. -/
lemma remove_card_isSome_iff (hand : Hand) (r s : Char) :
    (remove_card_from_hand hand r s).isSome = true ↔ (r, s) ∈ hand := by
  have hsame : (remove_card_from_hand hand r s).isSome
      = (hand.findIdx? (fun c => c.1 == r && c.2 == s) 0).isSome := by
    unfold remove_card_from_hand
    rcases hfind : hand.findIdx? (fun c => c.1 == r && c.2 == s) with _ | i <;>
      rw [hfind] <;> rfl
  rw [hsame, findIdx?_isSome_iff]
  constructor
  · rintro ⟨x, hx, hpx⟩
    obtain ⟨x1, x2⟩ := x
    simp only [Bool.and_eq_true, beq_iff_eq] at hpx
    rw [hpx.1, hpx.2] at hx
    exact hx
  · intro hmem
    exact ⟨(r, s), hmem, by simp⟩

/-! ## Deck partition (build_hands_from_deck, deal_and_send_hands)

The deck is the external generator's 104-character string, modelled as a
function from character offsets to characters.  The C loops
`for (i = p*2; i < 104 && count-bound; i += 8)` are modelled with an explicit
fuel that dominates the loop's (bounded) iteration count; the source guard is
kept verbatim, so any fuel at least 14 yields the loop's exact behaviour. -/

/-- Loop body of `build_hands_from_deck` for one player: guard
`i < 104 && count < 26`, appending the card `(deck[i], deck[i+1])`. -/
def buildHandAux (deck : Nat → Char) : Nat → Nat → Nat → List Card
  | 0, _, _ => []
  | fuel + 1, i, count =>
    if i < 104 ∧ count < 26 then
      (deck i, deck (i + 1)) :: buildHandAux deck fuel (i + 8) (count + 1)
    else []

/-- `build_hands_from_deck`, hand of player `p`: cards at character offsets
`p*2, p*2+8, p*2+16, ...`. -/
def build_hands_from_deck (deck : Nat → Char) (p : Nat) : List Card :=
  buildHandAux deck 104 (p * 2) 0

/-- Loop body of `deal_and_send_hands` for one player: guard
`i < 104 && k < 26` where `k` counts characters (two per card). -/
def dealCharsAux (deck : Nat → Char) : Nat → Nat → Nat → List Char
  | 0, _, _ => []
  | fuel + 1, i, k =>
    if i < 104 ∧ k < 26 then
      deck i :: deck (i + 1) :: dealCharsAux deck fuel (i + 8) (k + 2)
    else []

/-- The characters `deal_and_send_hands` deterministically writes into the
`H` line of player `p` (the source then prints the 53-byte buffer with a
`%.*s` precision of 52, so anything past these characters comes from
uninitialized stack memory). -/
def deal_hand_chars (deck : Nat → Char) (p : Nat) : List Char :=
  dealCharsAux deck 104 (p * 2) 0

/-- The full 52-card deck, each rank paired with each suit. -/
def fullDeck : List Card :=
  ranksString.flatMap (fun r => "SCDH".toList.map (fun s => (r, s)))

/-- The 52 cards named by a deck string, in deck order. -/
def deckCards (deck : Nat → Char) : List Card :=
  (List.range 52).map (fun j => (deck (2 * j), deck (2 * j + 1)))

/-! ## Trick winner (winning_seat_in_trick) -/

/-- The loop of `winning_seat_in_trick`: running `(winner, bestVal)` pair,
only lead-suit cards considered, strict improvement required. -/
def winningLoop (leadSuit : Char) : List Card → Nat → Nat → Int → Nat × Int
  | [], _, winner, bestVal => (winner, bestVal)
  | (r, s) :: rest, i, winner, bestVal =>
    if s ≠ leadSuit then winningLoop leadSuit rest (i + 1) winner bestVal
    else if rank_value r > bestVal then winningLoop leadSuit rest (i + 1) i (rank_value r)
    else winningLoop leadSuit rest (i + 1) winner bestVal

/-- `winning_seat_in_trick`: offset (from the leader) of the winning play;
falls back to 0 (the leader) when no play matches the lead suit. -/
def winning_seat_in_trick (leadSuit : Char) (plays : List Card) : Nat :=
  let r := winningLoop leadSuit plays 0 0 (-1)
  if r.2 < 0 then 0 else r.1

/-! ## Wire protocol messages

One constructor per line shape the server writes during a game.  Free-text
`M` lines carry their text verbatim (built by the same concatenations as the
`printf` formats); the final-score `M` line is abstracted to its data. -/

inductive SMsg where
  | lead : SMsg
  | follow (suit : Char) : SMsg
  | invalid : SMsg
  | accept : SMsg
  | gameOver : SMsg
  | handMsg (payload : List Char) : SMsg
  | info (text : List Char) : SMsg
  | finalScore (team1 team2 : Nat) : SMsg
deriving DecidableEq, Repr

/-- An output event: which seat the line is written to, and the line. -/
abbrev Out := List (Nat × SMsg)

/-- Player names by seat; an empty list models a missing name (the source
falls back to the seat label). -/
abbrev Names := Nat → List Char

/-- The display name used in `M` lines: the player's name when non-empty,
else the seat label `P1`..`P4`. -/
def player_display (names : Names) (seat : Nat) : List Char :=
  if names seat ≠ [] then names seat else ['P', Char.ofNat (49 + seat)]

/-- `send_lead_or_play_prompt`: `L` to the leader, `P<leadSuit>` to a
follower. -/
def send_lead_or_play_prompt (seat : Nat) (isLeader : Bool) (leadSuit : Char) : Out :=
  if isLeader then [(seat, .lead)] else [(seat, .follow leadSuit)]

/-- `send_invalid_and_reprompt`: the leader is re-prompted with the same `L`
line only; a follower gets an `I` line then the `P<leadSuit>` prompt. -/
def send_invalid_and_reprompt (seat : Nat) (isLeader : Bool) (leadSuit : Char) : Out :=
  if isLeader then [(seat, .lead)] else [(seat, .invalid), (seat, .follow leadSuit)]

/-- `announce_play`: `M<name> plays <rank><suit>` to every seat except the
player who made the play. -/
def announce_play (names : Names) (seat : Nat) (r s : Char) : Out :=
  ((List.range 4).filter (fun j => j ≠ seat)).map
    (fun j => (j, .info (player_display names seat ++ " plays ".toList ++ [r, s])))

/-- `announce_trick_winner`: `M<seat label> won` to every seat. -/
def announce_trick_winner (winnerSeat : Nat) : Out :=
  (List.range 4).map (fun i => (i, .info (['P', Char.ofNat (49 + winnerSeat)] ++ " won".toList)))

/-- `announce_final_score`: one `M` result line to every seat (the text has a
Team-1-wins / Team-2-wins / draw shape; the tallies determine it). -/
def announce_final_score (team1 team2 : Nat) : Out :=
  (List.range 4).map (fun i => (i, .finalScore team1 team2))

/-- `handle_disconnect_early`: to every seat except the dropped one, in seat
order, `M<name> disconnected early` then the `O` game-over marker. -/
def handle_disconnect_early (names : Names) (seat : Nat) : Out :=
  ((List.range 4).filter (fun j => j ≠ seat)).flatMap
    (fun j => [(j, .info (player_display names seat ++ " disconnected early".toList)),
               (j, .gameOver)])

/-! ## read_and_apply_valid_card

The blocking reads of one seat are modelled by that seat's input script; an
exhausted script is a failed `read_line_alloc` (peer disconnect).  The result
records the seat that disconnected (for specification purposes) or the
accepted play together with the seat's remaining script and updated hand. -/

inductive ReadRes where
  | disc (seat : Nat) (out : Out) : ReadRes
  | ok (rest : Script) (hand : Hand) (leadSuit r s : Char) (out : Out) : ReadRes
deriving DecidableEq, Repr

/-- Prefix earlier output events onto a result's output. -/
def ReadRes.withOut : ReadRes → Out → ReadRes
  | .disc seat o, pre => .disc seat (pre ++ o)
  | .ok rest hand lead r s o, pre => .ok rest hand lead r s (pre ++ o)

/-- `read_and_apply_valid_card`: loop reading lines from the seat until a
valid, legal card is submitted (re-prompting on each rejected line) or the
script is exhausted (disconnect).  On success the card is removed from the
hand, the lead suit is established when the seat leads, `A` is sent to the
player and the play is announced to the other seats. -/
def read_and_apply_valid_card (names : Names) (seat : Nat) (isLeader : Bool)
    (leadSuit : Char) (script : Script) (hand : Hand) : ReadRes :=
  match script with
  | [] => .disc seat (handle_disconnect_early names seat)
  | line :: rest =>
    match parse_card_token line with
    | none =>
      (read_and_apply_valid_card names seat isLeader leadSuit rest hand).withOut
        (send_invalid_and_reprompt seat isLeader leadSuit)
    | some (r, s) =>
      if !isLeader && has_suit_in_hand hand leadSuit && s != leadSuit then
        (read_and_apply_valid_card names seat isLeader leadSuit rest hand).withOut
          (send_invalid_and_reprompt seat false leadSuit)
      else
        match remove_card_from_hand hand r s with
        | none =>
          (read_and_apply_valid_card names seat isLeader leadSuit rest hand).withOut
            (send_invalid_and_reprompt seat isLeader leadSuit)
        | some hand1 =>
          .ok rest hand1 (if isLeader then s else leadSuit) r s
            ([(seat, .accept)] ++ announce_play names seat r s)

/-! ## play_single_trick and play_tricks -/

inductive TrickRes where
  | term (seat : Nat) (out : Out) : TrickRes
  | done (scripts : Nat → Script) (hands : Nat → Hand) (winnerSeat : Nat) (out : Out) : TrickRes

/-- The `for (offset = 0; offset < 4; ++offset)` loop of `play_single_trick`,
over the list of remaining offsets.  After the four plays the trick winner is
computed, announced, and the tricks-played counter is to be bumped by the
caller (`done` marks a completed trick). -/
def trick_loop (names : Names) (leaderSeat : Nat) :
    List Nat → (Nat → Script) → (Nat → Hand) → Char → List Card → TrickRes
  | [], scripts, hands, leadSuit, plays =>
    let winOffset := winning_seat_in_trick leadSuit plays
    let winnerSeat := (leaderSeat + winOffset) % 4
    .done scripts hands winnerSeat (announce_trick_winner winnerSeat)
  | offset :: offs, scripts, hands, leadSuit, plays =>
    let seat := (leaderSeat + offset) % 4
    let isLeader := offset == 0
    let prompt := send_lead_or_play_prompt seat isLeader leadSuit
    match read_and_apply_valid_card names seat isLeader leadSuit (scripts seat) (hands seat) with
    | .disc dseat o => .term dseat (prompt ++ o)
    | .ok rest hand1 lead1 r s o =>
      match trick_loop names leaderSeat offs
          (fun j => if j = seat then rest else scripts j)
          (fun j => if j = seat then hand1 else hands j)
          lead1 (plays ++ [(r, s)]) with
      | .term dseat o2 => .term dseat (prompt ++ o ++ o2)
      | .done scripts2 hands2 w o2 => .done scripts2 hands2 w (prompt ++ o ++ o2)

/-- `play_single_trick`: lead suit starts as the zero character, plays start
empty, offsets 0..3 are processed in turn order from the leader. -/
def play_single_trick (names : Names) (scripts : Nat → Script) (hands : Nat → Hand)
    (leaderSeat : Nat) : TrickRes :=
  trick_loop names leaderSeat [0, 1, 2, 3] scripts hands (Char.ofNat 0) []

/-- `seat_to_team`: seats 0 and 2 are team index 0, seats 1 and 3 team 1. -/
def seat_to_team (seat : Nat) : Nat :=
  if seat % 2 == 0 then 0 else 1

/-- Result of `play_tricks`: whether the game completed normally, the output
stream, the deltas applied to the tricks-played and games-terminated
counters, the team tallies, and which seat (if any) disconnected. -/
structure GameRes where
  completed : Bool
  out : Out
  tricksInc : Nat
  termInc : Nat
  team1 : Nat
  team2 : Nat
  discSeat : Option Nat
deriving DecidableEq, Repr

/-- The 13-iteration trick loop of `play_tricks`, on the number of tricks
still to play.  A terminated trick ends the game with the disconnect output;
a completed trick credits the winner's team, bumps the tricks-played counter
and makes the winner lead the next trick.  After 13 tricks the final score
and `O` markers are sent. -/
def play_tricks_loop (names : Names) :
    Nat → (Nat → Script) → (Nat → Hand) → Nat → Nat → Nat → GameRes
  | 0, _, _, _, t1, t2 =>
    { completed := true
      out := announce_final_score t1 t2 ++ (List.range 4).map (fun i => (i, .gameOver))
      tricksInc := 0, termInc := 0, team1 := t1, team2 := t2, discSeat := none }
  | n + 1, scripts, hands, leaderSeat, t1, t2 =>
    match play_single_trick names scripts hands leaderSeat with
    | .term dseat o =>
      { completed := false, out := o, tricksInc := 0, termInc := 1,
        team1 := t1, team2 := t2, discSeat := some dseat }
    | .done scripts2 hands2 winnerSeat o =>
      let t1' := if seat_to_team winnerSeat = 0 then t1 + 1 else t1
      let t2' := if seat_to_team winnerSeat = 0 then t2 else t2 + 1
      let r := play_tricks_loop names n scripts2 hands2 winnerSeat t1' t2'
      { r with out := o ++ r.out, tricksInc := r.tricksInc + 1 }

/-- `play_tricks`: 13 tricks, seat 0 leads the first, tallies start at 0. -/
def play_tricks (names : Names) (scripts : Nat → Script) (hands : Nat → Hand) : GameRes :=
  play_tricks_loop names 13 scripts hands 0 0 0

/-! ## start_game counter/step ordering -/

inductive GEvent where
  | announceTeams : GEvent
  | dealHands : GEvent
  | buildHands : GEvent
  | startMsg : GEvent
  | incRunning : GEvent
  | runTricks : GEvent
  | decRunning : GEvent
  | incCompleted : GEvent
  | teardown : GEvent
deriving DecidableEq, Repr

/-- The ordered steps of `start_game` after the reseat: announce teams, deal
and send hands, build the hand trackers, broadcast the start message,
increment the games-running counter, run the trick loop, decrement the
games-running counter, increment games-completed only on normal completion,
then tear everything down. -/
def start_game_events (names : Names) (scripts : Nat → Script) (deck : Nat → Char) :
    List GEvent :=
  let hands := fun p => build_hands_from_deck deck p
  let res := play_tricks names scripts hands
  [GEvent.announceTeams, GEvent.dealHands, GEvent.buildHands, GEvent.startMsg,
   GEvent.incRunning, GEvent.runTricks, GEvent.decRunning] ++
    (if res.completed then [GEvent.incCompleted] else []) ++ [GEvent.teardown]

/-- The `deal_and_send_hands` output: one `H` line per seat carrying the
characters the source deterministically writes. -/
def deal_and_send_hands (deck : Nat → Char) : Out :=
  (List.range 4).map (fun p => (p, SMsg.handMsg (deal_hand_chars deck p)))

/-! ## Reseating (start_game's exchange sort)

`start_game` sorts the array `order = {0,1,2,3}` with a double loop that
compares `names[order[i]]` and `names[order[j]]` with `strcmp` and swaps the
two order entries when the first is greater.  The comparisons only ever look
at the boolean outcome, so the sort is defined over an abstract strict
comparison and instantiated with the names. -/

/-- One compare-and-swap of the double loop at positions `(i, j)`: swap when
`strcmp(names[order[i]], names[order[j]]) > 0`. -/
def exchange_pass (lt : Fin 4 → Fin 4 → Bool) (order : List (Fin 4)) (ij : Nat × Nat) :
    List (Fin 4) :=
  let oi := order.getD ij.1 0
  let oj := order.getD ij.2 0
  if lt oj oi then (order.set ij.1 oj).set ij.2 oi else order

/-- The double loop `for i, for j > i` over the four seats. -/
def reseat_order_by (lt : Fin 4 → Fin 4 → Bool) : List (Fin 4) :=
  [(0, 1), (0, 2), (0, 3), (1, 2), (1, 3), (2, 3)].foldl (exchange_pass lt) [0, 1, 2, 3]

/-- The reseat permutation of `start_game`: entry `s` is the original join
index of the player placed at seat `s`. -/
def reseat_order (names : Fin 4 → List Char) : List (Fin 4) :=
  reseat_order_by (fun a b => decide (names a < names b))

/-- Insertion into a list already sorted by `le`. -/
def insert_by (le : Fin 4 → Fin 4 → Bool) (x : Fin 4) : List (Fin 4) → List (Fin 4)
  | [] => [x]
  | y :: ys => if le x y then x :: y :: ys else y :: insert_by le x ys

/-- Stable insertion sort by `le`. -/
def sort_by (le : Fin 4 → Fin 4 → Bool) : List (Fin 4) → List (Fin 4)
  | [] => []
  | x :: xs => insert_by le x (sort_by le xs)

/-- Modelled from the spec's words, for comparison with `reseat_order`: sort
the four join indices ascending by name, ties broken by original join order
(a stable sort on the name key). -/
def claim_seating (names : Fin 4 → List Char) : List (Fin 4) :=
  sort_by (fun i j => decide (names i < names j) || (names i == names j && decide (i.val ≤ j.val)))
    [0, 1, 2, 3]

/-! ## Pending-game registry

Every registry operation in the source runs under `pendingGamesMutex`, so the
registry's evolution is a sequence of atomic operations.  Lobbies carry a
unique creation id playing the role of the C `Game*` pointer a worker holds
between its critical sections.  Workers follow `client_greeting_thread`:
find-or-create, then seat, then (only for the worker that filled seat 3)
unlink; the monitor thread may evict a seat of any lobby still in the
registry.  A schedule interleaves these atomic steps arbitrarily. -/

structure Lobby where
  gid : Nat
  gameName : String
  playerCount : Nat
  seats : List (Option (String × Nat))
deriving DecidableEq, Repr

/-- `get_or_create_pending_game`: linear search by exact name; when absent, a
zero-seat lobby is prepended to the list.  Returns the registry and the id of
the found or created lobby (the C function's returned pointer). -/
def get_or_create_pending_game (reg : List Lobby) (nextId : Nat) (gameName : String) :
    List Lobby × Nat × Nat :=
  match reg.find? (fun g => g.gameName == gameName) with
  | some g => (reg, nextId, g.gid)
  | none =>
    ({ gid := nextId, gameName := gameName, playerCount := 0,
       seats := [none, none, none, none] } :: reg, nextId + 1, nextId)

/-- Replace the lobby with the given id, if present. -/
def update_lobby (reg : List Lobby) (gid : Nat) (f : Lobby → Lobby) : List Lobby :=
  reg.map (fun g => if g.gid == gid then f g else g)

/-- `add_player_to_pending_game`: fails when the lobby has 4 players (or the
held pointer refers to a lobby no longer in the registry, which by the
protocol is always full); otherwise the player takes the next join-order
seat. -/
def add_player_to_pending_game (reg : List Lobby) (gid : Nat)
    (playerName : String) (fd : Nat) : List Lobby × Option Nat :=
  match reg.find? (fun g => g.gid == gid) with
  | none => (reg, none)
  | some g =>
    if g.playerCount ≥ 4 then (reg, none)
    else
      (update_lobby reg gid (fun g0 =>
        { g0 with seats := g0.seats.set g0.playerCount (some (playerName, fd)),
                  playerCount := g0.playerCount + 1 }),
       some g.playerCount)

/-- `unlink_pending_game`: remove the first (by id uniqueness, only) matching
lobby from the registry list (no-op if already absent). -/
def unlink_pending_game : List Lobby → Nat → List Lobby
  | [], _ => []
  | g :: gs, gid => if g.gid == gid then gs else g :: unlink_pending_game gs gid

/-- The monitor's eviction of one dead seat: shift the later seats down, clear
the last occupied slot, decrement the count.  Only applies to a seat index
below the player count. -/
def evict_seat (reg : List Lobby) (gid : Nat) (s : Nat) : List Lobby :=
  update_lobby reg gid (fun g =>
    if s < g.playerCount then
      { g with seats := g.seats.eraseIdx s ++ [none], playerCount := g.playerCount - 1 }
    else g)

inductive WPC where
  | ready : WPC
  | joined (gid : Nat) : WPC
  | seated (gid : Nat) (idx : Option Nat) : WPC
  | finished : WPC
deriving DecidableEq, Repr

structure Worker where
  pname : String
  gname : String
  fd : Nat
  pc : WPC
deriving DecidableEq, Repr

structure RegSys where
  reg : List Lobby
  nextId : Nat
  workers : List Worker
deriving DecidableEq, Repr

/-- One atomic critical section of a worker's join protocol. -/
def worker_step (reg : List Lobby) (nextId : Nat) (w : Worker) :
    List Lobby × Nat × Worker :=
  match w.pc with
  | .ready =>
    let (reg1, next1, gid) := get_or_create_pending_game reg nextId w.gname
    (reg1, next1, { w with pc := .joined gid })
  | .joined gid =>
    let (reg1, idx) := add_player_to_pending_game reg gid w.pname w.fd
    (reg1, nextId, { w with pc := .seated gid idx })
  | .seated gid idx =>
    if idx == some 3 then (unlink_pending_game reg gid, nextId, { w with pc := .finished })
    else (reg, nextId, { w with pc := .finished })
  | .finished => (reg, nextId, w)

/-- A schedule action: run the next critical section of worker `i`, or let
the disconnect monitor evict seat `s` of the registry lobby with id `gid`. -/
inductive RegAct where
  | work (i : Nat) : RegAct
  | evict (gid : Nat) (s : Nat) : RegAct
deriving DecidableEq, Repr

def reg_step (st : RegSys) : RegAct → RegSys
  | .work i =>
    match st.workers.get? i with
    | none => st
    | some w =>
      let (reg1, next1, w1) := worker_step st.reg st.nextId w
      { reg := reg1, nextId := next1, workers := st.workers.set i w1 }
  | .evict gid s => { st with reg := evict_seat st.reg gid s }

/-- Run a schedule from an initial pool of workers and an empty registry. -/
def reg_run (ws : List Worker) (acts : List RegAct) : RegSys :=
  acts.foldl reg_step { reg := [], nextId := 0, workers := ws }

/-! ## Connection admission controller

`acquire_conn_slot` and `release_conn_slot` are single critical sections on
the `activeClients` counter; `acquire` waits on the condition variable while
`activeClients >= maxConns` (only when `maxConns > 0`), so the step is
enabled exactly when the count is below the maximum or the maximum is 0. -/

/-- The effect of `release_conn_slot` on the counter (floor at zero). -/
def release_result (n : Nat) : Nat :=
  if n > 0 then n - 1 else n

/-- The wait-loop guard of `acquire_conn_slot`: the call returns (rather than
blocking) exactly when this holds. -/
def acquire_enabled (maxConns n : Nat) : Prop :=
  maxConns = 0 ∨ n < maxConns

inductive ConnStep (maxConns : Nat) : Nat → Nat → Prop where
  | acquire (n : Nat) : acquire_enabled maxConns n → ConnStep maxConns n (n + 1)
  | release (n : Nat) : ConnStep maxConns n (release_result n)

inductive ConnReach (maxConns : Nat) : Nat → Prop where
  | init : ConnReach maxConns 0
  | step {n m : Nat} : ConnReach maxConns n → ConnStep maxConns n m → ConnReach maxConns m

/-! ## Shared concrete example inputs -/

/-- A concrete deck string: the 52 cards in `fullDeck` order. -/
def exDeckChars : List Char := fullDeck.flatMap (fun c => [c.1, c.2])

def exDeck : Nat → Char := fun i => exDeckChars.getD i ' '

/-- Names of the end-to-end scenario A of the spec, by join order. -/
def exNamesA : Fin 4 → List Char :=
  fun i => [['B', 'o', 'b'], ['A', 'n', 'n'], ['C', 'i', 'd'], ['D', 'e', 'e']].getD i.val []

/-- Two players sharing a name, exposing the unstable tie-break. -/
def exNamesDup : Fin 4 → List Char :=
  fun i => [['B'], ['B'], ['A'], ['C']].getD i.val []

/-- All-empty scripts: every seat disconnects at its first read. -/
def exScriptsEmpty : Nat → Script := fun _ => []

def exNamesNone : Names := fun _ => []

def exHands : Nat → Hand := fun p => build_hands_from_deck exDeck p

/-! ## C5: connection admission -/

/-- C5: with a positive configured maximum, the number of acquired-but-not-
released admission slots never exceeds the maximum in any reachable counter
state (acquire is enabled only strictly below the maximum before it
increments); with maximum 0 an acquire step is enabled from every state
(never blocks); and a release step maps the count `n` to `n - 1` with a
floor at zero. -/
theorem c5_admission_bound (maxConns n : Nat) :
    (0 < maxConns → ConnReach maxConns n → n ≤ maxConns) ∧
    (maxConns = 0 → ∀ k, ConnStep maxConns k (k + 1)) ∧
    (∀ k, release_result k = k - 1) := by
  refine ⟨?_, ?_, ?_⟩
  · intro hmax hreach
    induction hreach with
    | init => omega
    | step hr hs ih =>
      cases hs with
      | acquire hen =>
        unfold acquire_enabled at hen
        omega
      | release =>
        unfold release_result
        split <;> omega
  · intro h0 k
    exact ConnStep.acquire k (Or.inl h0)
  · intro k
    unfold release_result
    split <;> omega

theorem c5_admission_bound_witness :
    2 ≤ 2 ∧ ConnStep 0 7 8 ∧ release_result 5 = 4 := by
  have s1 : ConnReach 2 1 := ConnReach.step ConnReach.init (ConnStep.acquire 0 (Or.inr (by omega)))
  have s2 : ConnReach 2 2 := ConnReach.step s1 (ConnStep.acquire 1 (Or.inr (by omega)))
  refine ⟨(c5_admission_bound 2 2).1 (by omega) s2, ?_, ?_⟩
  · exact (c5_admission_bound 0 0).2.1 rfl 7
  · exact (c5_admission_bound 0 0).2.2 5

/-! ## C3: deck partition into hands -/

/-- The card indices (into the 52-card deck) dealt to hand `p`. -/
def handIdx (p : Nat) : List Nat := (List.range 13).map (fun k => p + 4 * k)

lemma build_hands_offsets (deck : Nat → Char) (p : Nat) (hp : p < 4) :
    build_hands_from_deck deck p =
      (List.range 13).map (fun k => (deck (p * 2 + 8 * k), deck (p * 2 + 8 * k + 1))) := by
  interval_cases p <;> rfl

lemma build_hands_idx_map (deck : Nat → Char) (p : Nat) (hp : p < 4) :
    build_hands_from_deck deck p =
      (handIdx p).map (fun j => (deck (2 * j), deck (2 * j + 1))) := by
  interval_cases p <;> rfl

lemma handIdx_union_perm :
    (handIdx 0 ++ handIdx 1 ++ handIdx 2 ++ handIdx 3).Perm (List.range 52) := by
  decide

lemma fullDeck_nodup : fullDeck.Nodup := by decide

/-- C3: for a deck string that encodes a permutation of the 52 distinct
cards, hand `p` is exactly the rank/suit pairs at character offsets
`p*2, p*2+8, p*2+16, ...`; every hand has exactly 13 cards; the four hands
together are a permutation of the full 52-card deck; and the hands are
pairwise disjoint. -/
theorem c3_deck_partition (deck : Nat → Char)
    (hperm : (deckCards deck).Perm fullDeck) :
    (∀ p, p < 4 → build_hands_from_deck deck p =
      (List.range 13).map (fun k => (deck (p * 2 + 8 * k), deck (p * 2 + 8 * k + 1)))) ∧
    (∀ p, p < 4 → (build_hands_from_deck deck p).length = 13) ∧
    (build_hands_from_deck deck 0 ++ build_hands_from_deck deck 1 ++
      build_hands_from_deck deck 2 ++ build_hands_from_deck deck 3).Perm fullDeck ∧
    (∀ p q, p < 4 → q < 4 → p ≠ q → ∀ c, c ∈ build_hands_from_deck deck p →
      c ∉ build_hands_from_deck deck q) := by
  have hunion : (build_hands_from_deck deck 0 ++ build_hands_from_deck deck 1 ++
      build_hands_from_deck deck 2 ++ build_hands_from_deck deck 3).Perm fullDeck := by
    rw [build_hands_idx_map deck 0 (by omega), build_hands_idx_map deck 1 (by omega),
      build_hands_idx_map deck 2 (by omega), build_hands_idx_map deck 3 (by omega),
      ← List.map_append, ← List.map_append, ← List.map_append]
    have := (handIdx_union_perm).map (fun j => (deck (2 * j), deck (2 * j + 1)))
    exact this.trans hperm
  refine ⟨fun p hp => build_hands_offsets deck p hp, ?_, hunion, ?_⟩
  · intro p hp
    rw [build_hands_offsets deck p hp]
    simp
  · have hnodup : (build_hands_from_deck deck 0 ++ build_hands_from_deck deck 1 ++
        build_hands_from_deck deck 2 ++ build_hands_from_deck deck 3).Nodup :=
      hunion.symm.nodup fullDeck_nodup
    intro p q hp hq hpq c hcp hcq
    rw [List.nodup_append] at hnodup
    obtain ⟨hn012, hn3, hd3⟩ := hnodup
    rw [List.nodup_append] at hn012
    obtain ⟨hn01, hn2, hd2⟩ := hn012
    rw [List.nodup_append] at hn01
    obtain ⟨hn0, hn1, hd1⟩ := hn01
    interval_cases p <;> interval_cases q <;>
      first
        | exact absurd rfl hpq
        | exact hd1 hcp hcq
        | exact hd1 hcq hcp
        | exact hd2 (List.mem_append.mpr (Or.inl hcp)) hcq
        | exact hd2 (List.mem_append.mpr (Or.inr hcp)) hcq
        | exact hd2 (List.mem_append.mpr (Or.inl hcq)) hcp
        | exact hd2 (List.mem_append.mpr (Or.inr hcq)) hcp
        | exact hd3 (List.mem_append.mpr (Or.inl (List.mem_append.mpr (Or.inl hcp)))) hcq
        | exact hd3 (List.mem_append.mpr (Or.inl (List.mem_append.mpr (Or.inr hcp)))) hcq
        | exact hd3 (List.mem_append.mpr (Or.inr hcp)) hcq
        | exact hd3 (List.mem_append.mpr (Or.inl (List.mem_append.mpr (Or.inl hcq)))) hcp
        | exact hd3 (List.mem_append.mpr (Or.inl (List.mem_append.mpr (Or.inr hcq)))) hcp
        | exact hd3 (List.mem_append.mpr (Or.inr hcq)) hcp

theorem c3_deck_partition_witness :
    (build_hands_from_deck exDeck 0 ++ build_hands_from_deck exDeck 1 ++
      build_hands_from_deck exDeck 2 ++ build_hands_from_deck exDeck 3).Perm fullDeck :=
  (c3_deck_partition exDeck (by decide)).2.2.1

/-! ## C8: the dealt-hand message -/

lemma deal_hand_chars_eq (deck : Nat → Char) (p : Nat) (hp : p < 4) :
    deal_hand_chars deck p =
      (List.range 13).flatMap (fun k => [deck (p * 2 + 8 * k), deck (p * 2 + 8 * k + 1)]) := by
  interval_cases p <;> rfl

/-- C8 counterexample: on a concrete deck, the `H` line for seat 0 carries
only 26 characters, not 52; the source writes just 13 rank/suit pairs into
the message buffer. -/
theorem c8_hand_message_counterexample :
    (0, SMsg.handMsg (deal_hand_chars exDeck 0)) ∈ deal_and_send_hands exDeck ∧
    ¬ (deal_hand_chars exDeck 0).length = 52 := by
  constructor
  · decide
  · decide

/-- C8 amended: every initial dealt-hand message consists of the tag `H`
followed by exactly 26 characters forming 13 concatenated rank/suit pairs
(taken from the deck at the dealing offsets, with no separators); the source
never writes the further 26 characters the 52-character claim expects (those
buffer bytes are uninitialized memory). -/
theorem c8_hand_message_amended (deck : Nat → Char) (p : Nat) (payload : List Char)
    (hmem : (p, SMsg.handMsg payload) ∈ deal_and_send_hands deck) :
    payload.length = 26 ∧
    payload = (List.range 13).flatMap
      (fun k => [deck (p * 2 + 8 * k), deck (p * 2 + 8 * k + 1)]) := by
  have hp : p < 4 ∧ payload = deal_hand_chars deck p := by
    unfold deal_and_send_hands at hmem
    rw [List.mem_map] at hmem
    obtain ⟨a, ha, heq⟩ := hmem
    rw [List.mem_range] at ha
    have h1 : a = p := congrArg Prod.fst heq
    have h2 : SMsg.handMsg (deal_hand_chars deck a) = SMsg.handMsg payload :=
      congrArg Prod.snd heq
    rw [SMsg.handMsg.injEq] at h2
    subst h1
    exact ⟨ha, h2.symm⟩
  obtain ⟨hp4, hpay⟩ := hp
  subst hpay
  rw [deal_hand_chars_eq deck p hp4]
  constructor
  · interval_cases p <;> rfl
  · rfl

theorem c8_hand_message_amended_witness :
    (deal_hand_chars exDeck 0).length = 26 :=
  (c8_hand_message_amended exDeck 0 (deal_hand_chars exDeck 0) (by decide)).1

/-! ## Lemmas on the trick loop results -/

lemma play_tricks_loop_completed (names : Names) :
    ∀ (n : Nat) (scripts : Nat → Script) (hands : Nat → Hand) (leaderSeat t1 t2 : Nat),
      (play_tricks_loop names n scripts hands leaderSeat t1 t2).discSeat = none →
      (play_tricks_loop names n scripts hands leaderSeat t1 t2).completed = true ∧
      (play_tricks_loop names n scripts hands leaderSeat t1 t2).termInc = 0 ∧
      (play_tricks_loop names n scripts hands leaderSeat t1 t2).tricksInc = n ∧
      (play_tricks_loop names n scripts hands leaderSeat t1 t2).team1 +
        (play_tricks_loop names n scripts hands leaderSeat t1 t2).team2 = t1 + t2 + n := by
  intro n
  induction n with
  | zero =>
    intro scripts hands leaderSeat t1 t2 hd
    simp [play_tricks_loop]
  | succ n ih =>
    intro scripts hands leaderSeat t1 t2 hd
    rw [play_tricks_loop] at hd ⊢
    rcases htr : play_single_trick names scripts hands leaderSeat with
      ⟨dseat, o⟩ | ⟨scripts2, hands2, w, o⟩
    · rw [htr] at hd
      simp at hd
    · rw [htr] at hd
      dsimp only at hd ⊢
      by_cases hw : seat_to_team w = 0
      · simp only [if_pos hw] at hd ⊢
        obtain ⟨h1, h2, h3, h4⟩ := ih scripts2 hands2 w (t1 + 1) t2 hd
        exact ⟨h1, h2, by rw [h3], by rw [h4]; omega⟩
      · simp only [if_neg hw] at hd ⊢
        obtain ⟨h1, h2, h3, h4⟩ := ih scripts2 hands2 w t1 (t2 + 1) hd
        exact ⟨h1, h2, by rw [h3], by rw [h4]; omega⟩

/-- A completed `play_tricks` run plays exactly 13 tricks, all credited. -/
lemma play_tricks_completed (names : Names) (scripts : Nat → Script) (hands : Nat → Hand)
    (hd : (play_tricks names scripts hands).discSeat = none) :
    (play_tricks names scripts hands).completed = true ∧
    (play_tricks names scripts hands).termInc = 0 ∧
    (play_tricks names scripts hands).tricksInc = 13 ∧
    (play_tricks names scripts hands).team1 + (play_tricks names scripts hands).team2 = 13 :=
  play_tricks_loop_completed names 13 scripts hands 0 0 0 hd

lemma play_tricks_loop_not_completed (names : Names) :
    ∀ (n : Nat) (scripts : Nat → Script) (hands : Nat → Hand) (leaderSeat t1 t2 : Nat),
      (play_tricks_loop names n scripts hands leaderSeat t1 t2).completed = true →
      (play_tricks_loop names n scripts hands leaderSeat t1 t2).discSeat = none := by
  intro n
  induction n with
  | zero =>
    intro scripts hands leaderSeat t1 t2 hc
    simp [play_tricks_loop]
  | succ n ih =>
    intro scripts hands leaderSeat t1 t2 hc
    rw [play_tricks_loop] at hc ⊢
    rcases htr : play_single_trick names scripts hands leaderSeat with
      ⟨dseat, o⟩ | ⟨scripts2, hands2, w, o⟩
    · rw [htr] at hc
      simp at hc
    · rw [htr] at hc
      dsimp only at hc ⊢
      exact ih scripts2 hands2 w _ _ hc

/-! ## C9: counters around the game -/

/-- C9 counterexample: in the step order of `start_game`, the games-running
increment does not precede the dealing of hands (the source deals first and
only increments the counter just before the trick loop). -/
theorem c9_counter_order_counterexample :
    ¬ ((start_game_events exNamesNone exScriptsEmpty exDeck).findIdx
        (fun e => e == GEvent.incRunning) <
      (start_game_events exNamesNone exScriptsEmpty exDeck).findIdx
        (fun e => e == GEvent.dealHands)) := by
  decide

/-- C9 amended: around each game the games-running counter is incremented
after dealing (immediately before the trick loop) and decremented right
after the trick loop regardless of outcome, and the games-completed counter
is incremented exactly when the game completes normally, which happens
exactly when all 13 tricks are played. -/
theorem c9_counter_order_amended (names : Names) (scripts : Nat → Script) (deck : Nat → Char) :
    (start_game_events names scripts deck).findIdx (fun e => e == GEvent.dealHands) <
      (start_game_events names scripts deck).findIdx (fun e => e == GEvent.incRunning) ∧
    (start_game_events names scripts deck).findIdx (fun e => e == GEvent.incRunning) <
      (start_game_events names scripts deck).findIdx (fun e => e == GEvent.runTricks) ∧
    (start_game_events names scripts deck).findIdx (fun e => e == GEvent.runTricks) <
      (start_game_events names scripts deck).findIdx (fun e => e == GEvent.decRunning) ∧
    (GEvent.incCompleted ∈ start_game_events names scripts deck ↔
      (play_tricks names scripts (fun p => build_hands_from_deck deck p)).completed = true) ∧
    ((play_tricks names scripts (fun p => build_hands_from_deck deck p)).completed = true →
      (play_tricks names scripts (fun p => build_hands_from_deck deck p)).tricksInc = 13) := by
  have hev : start_game_events names scripts deck =
      ([GEvent.announceTeams, GEvent.dealHands, GEvent.buildHands, GEvent.startMsg,
        GEvent.incRunning, GEvent.runTricks, GEvent.decRunning] ++
        (if (play_tricks names scripts (fun p => build_hands_from_deck deck p)).completed = true
          then [GEvent.incCompleted] else []) ++ [GEvent.teardown]) := rfl
  rw [hev]
  rcases hc : (play_tricks names scripts (fun p => build_hands_from_deck deck p)).completed
  · refine ⟨by decide, by decide, by decide, by decide, ?_⟩
    intro h
    exact absurd h (by decide)
  · refine ⟨by decide, by decide, by decide, by decide, ?_⟩
    intro h
    have hd := play_tricks_loop_not_completed names 13 scripts
      (fun p => build_hands_from_deck deck p) 0 0 0 hc
    exact (play_tricks_loop_completed names 13 scripts
      (fun p => build_hands_from_deck deck p) 0 0 0 hd).2.2.1

/-! ## C2: trick winner -/

lemma rank_value_ge_two_of_valid (r : Char) (h : is_valid_rank r = true) :
    2 ≤ rank_value r := by
  unfold is_valid_rank at h
  unfold rank_value at h ⊢
  rcases hf : ranksString.findIdx? (fun c => c == r) with _ | i
  · rw [hf] at h
    simp at h
  · show (2 : Int) ≤ 2 + (i : Int)
    omega

/-- Invariant of the winner-selection loop: the final best value dominates
the rank of every lead-suit play in the remainder, never decreases, and the
final `(winner, bestVal)` pair is either the initial one (nothing matched
and improved) or comes from a lead-suit play in the list. -/
lemma winningLoop_inv (leadSuit : Char) :
    ∀ (plays : List Card) (i w : Nat) (bv : Int),
      (∀ k, k < plays.length → (plays.getD k ('0', '0')).2 = leadSuit →
        rank_value (plays.getD k ('0', '0')).1 ≤ (winningLoop leadSuit plays i w bv).2) ∧
      bv ≤ (winningLoop leadSuit plays i w bv).2 ∧
      (winningLoop leadSuit plays i w bv = (w, bv) ∨
        ∃ k, k < plays.length ∧ (plays.getD k ('0', '0')).2 = leadSuit ∧
          (winningLoop leadSuit plays i w bv).1 = i + k ∧
          (winningLoop leadSuit plays i w bv).2 = rank_value (plays.getD k ('0', '0')).1) := by
  intro plays
  induction plays with
  | nil =>
    intro i w bv
    refine ⟨?_, le_refl _, Or.inl rfl⟩
    intro k hk
    simp at hk
  | cons c rest ih =>
    intro i w bv
    obtain ⟨r, s⟩ := c
    rw [winningLoop]
    by_cases hs : s ≠ leadSuit
    · rw [if_pos hs]
      obtain ⟨H1, H2, H3⟩ := ih (i + 1) w bv
      refine ⟨?_, H2, ?_⟩
      · intro k hk hsuit
        cases k with
        | zero => simp at hsuit; exact absurd hsuit hs
        | succ k =>
          rw [List.getD_cons_succ] at hsuit ⊢
          exact H1 k (by simp at hk; omega) hsuit
      · rcases H3 with heq | ⟨k, hk, hsuit, h1, h2⟩
        · exact Or.inl heq
        · refine Or.inr ⟨k + 1, by simp; omega, ?_, ?_, ?_⟩
          · rw [List.getD_cons_succ]; exact hsuit
          · rw [h1]; omega
          · rw [List.getD_cons_succ]; exact h2
    · rw [if_neg hs]
      push_neg at hs
      by_cases hv : rank_value r > bv
      · rw [if_pos hv]
        obtain ⟨H1, H2, H3⟩ := ih (i + 1) i (rank_value r)
        refine ⟨?_, le_trans (le_of_lt hv) H2, ?_⟩
        · intro k hk hsuit
          cases k with
          | zero => simpa using H2
          | succ k =>
            rw [List.getD_cons_succ] at hsuit ⊢
            exact H1 k (by simp at hk; omega) hsuit
        · rcases H3 with heq | ⟨k, hk, hsuit, h1, h2⟩
          · refine Or.inr ⟨0, by simp, by simpa using hs, ?_, ?_⟩
            · rw [heq]; simp
            · rw [heq]; simp
          · refine Or.inr ⟨k + 1, by simp; omega, ?_, ?_, ?_⟩
            · rw [List.getD_cons_succ]; exact hsuit
            · rw [h1]; omega
            · rw [List.getD_cons_succ]; exact h2
      · rw [if_neg hv]
        obtain ⟨H1, H2, H3⟩ := ih (i + 1) w bv
        refine ⟨?_, H2, ?_⟩
        · intro k hk hsuit
          cases k with
          | zero => simp only [List.getD_cons_zero]; omega
          | succ k =>
            rw [List.getD_cons_succ] at hsuit ⊢
            exact H1 k (by simp at hk; omega) hsuit
        · rcases H3 with heq | ⟨k, hk, hsuit, h1, h2⟩
          · exact Or.inl heq
          · refine Or.inr ⟨k + 1, by simp; omega, ?_, ?_, ?_⟩
            · rw [List.getD_cons_succ]; exact hsuit
            · rw [h1]; omega
            · rw [List.getD_cons_succ]; exact h2

lemma findIdx?_some_pred {α : Type} (p : α → Bool) (d : α) :
    ∀ (l : List α) (i0 j : Nat), l.findIdx? p i0 = some j →
      i0 ≤ j ∧ j - i0 < l.length ∧ p (l.getD (j - i0) d) = true := by
  intro l
  induction l with
  | nil =>
    intro i0 j h
    rw [List.findIdx?] at h
    exact absurd h (by simp)
  | cons a l ih =>
    intro i0 j h
    rw [List.findIdx?_cons] at h
    by_cases hp : p a = true
    · rw [if_pos hp] at h
      have : j = i0 := by injection h; omega
      subst this
      refine ⟨le_refl _, by simp, ?_⟩
      simpa using hp
    · rw [if_neg hp] at h
      obtain ⟨h0, hlt, hpred⟩ := ih (i0 + 1) j h
      refine ⟨by omega, by simp; omega, ?_⟩
      have : j - i0 = (j - (i0 + 1)) + 1 := by omega
      rw [this, List.getD_cons_succ]
      exact hpred

lemma rank_char_of_findIdx? (r : Char) (i : Nat)
    (h : ranksString.findIdx? (fun c => c == r) = some i) :
    ranksString.getD i ' ' = r := by
  obtain ⟨h0, hlt, hp⟩ := findIdx?_some_pred (fun c => c == r) ' ' ranksString 0 i h
  simp only [Nat.sub_zero] at hp
  simpa using hp

/-- Two valid rank characters with the same rank value are the same
character. -/
lemma rank_value_inj (r1 r2 : Char) (h1 : is_valid_rank r1 = true)
    (h2 : is_valid_rank r2 = true) (heq : rank_value r1 = rank_value r2) : r1 = r2 := by
  unfold is_valid_rank at h1 h2
  unfold rank_value at h1 h2 heq
  rcases hf1 : ranksString.findIdx? (fun c => c == r1) with _ | i1
  · rw [hf1] at h1; simp at h1
  · rcases hf2 : ranksString.findIdx? (fun c => c == r2) with _ | i2
    · rw [hf2] at h2; simp at h2
    · rw [hf1, hf2] at heq
      have heq2 : (2 : Int) + (i1 : Int) = 2 + (i2 : Int) := heq
      have hi : i1 = i2 := by omega
      rw [← rank_char_of_findIdx? r1 i1 hf1, ← rank_char_of_findIdx? r2 i2 hf2, hi]

/-- C2: over the four accepted plays of a completed trick (listed in turn
order from the leader, so offset 0 is the leader's play and offset `k` is
seat `(leader + k) mod 4`), the winning offset points at a play of the led
suit whose rank strictly exceeds that of every other led-suit play (plays of
any other suit never win), and when no play matches the led suit the winner
defaults to offset 0, the leader. -/
theorem c2_trick_winner (leadSuit : Char) (plays : List Card)
    (hlen : plays.length = 4)
    (hvalid : ∀ c ∈ plays, is_valid_rank c.1 = true)
    (hnodup : plays.Nodup) :
    ((∀ c ∈ plays, c.2 ≠ leadSuit) → winning_seat_in_trick leadSuit plays = 0) ∧
    ((∃ c ∈ plays, c.2 = leadSuit) →
      winning_seat_in_trick leadSuit plays < 4 ∧
      (plays.getD (winning_seat_in_trick leadSuit plays) ('0', '0')).2 = leadSuit ∧
      (∀ k, k < 4 → (plays.getD k ('0', '0')).2 = leadSuit →
        k ≠ winning_seat_in_trick leadSuit plays →
        rank_value (plays.getD k ('0', '0')).1 <
          rank_value (plays.getD (winning_seat_in_trick leadSuit plays) ('0', '0')).1)) := by
  obtain ⟨H1, H2, H3⟩ := winningLoop_inv leadSuit plays 0 0 (-1)
  have hgetmem : ∀ k, k < plays.length → plays.getD k ('0', '0') ∈ plays := by
    intro k hk
    rw [List.getD_eq_getElem _ _ hk]
    exact plays.getElem_mem hk
  constructor
  · intro hnone
    rcases H3 with heq | ⟨k, hk, hsuit, h1, h2⟩
    · unfold winning_seat_in_trick
      rw [heq]
      norm_num
    · exact absurd hsuit (hnone _ (hgetmem k hk))
  · rintro ⟨c, hc, hcs⟩
    obtain ⟨k0, hk0⟩ := List.mem_iff_get.mp hc
    have hk0lt : k0.val < plays.length := k0.isLt
    have hget0 : plays.getD k0.val ('0', '0') = c := by
      rw [List.getD_eq_getElem _ _ hk0lt, ← hk0]
      simp [List.get_eq_getElem]
    have hle : rank_value c.1 ≤ (winningLoop leadSuit plays 0 0 (-1)).2 := by
      have := H1 k0.val hk0lt (by rw [hget0]; exact hcs)
      rwa [hget0] at this
    have hc2 : 2 ≤ rank_value c.1 := rank_value_ge_two_of_valid c.1 (hvalid c hc)
    have hpos : ¬ (winningLoop leadSuit plays 0 0 (-1)).2 < 0 := by omega
    have hwin : winning_seat_in_trick leadSuit plays = (winningLoop leadSuit plays 0 0 (-1)).1 := by
      unfold winning_seat_in_trick
      rw [if_neg hpos]
    rcases H3 with heq | ⟨k, hk, hsuit, h1, h2⟩
    · rw [heq] at hle
      simp at hle
      omega
    · have hwk : winning_seat_in_trick leadSuit plays = k := by
        rw [hwin, h1]
        omega
      rw [hwk]
      refine ⟨by omega, hsuit, ?_⟩
      intro l hl hlsuit hlne
      have hlle : rank_value (plays.getD l ('0', '0')).1 ≤
          rank_value (plays.getD k ('0', '0')).1 := by
        have := H1 l (by omega) hlsuit
        rwa [h2] at this
      rcases lt_or_eq_of_le hlle with hlt | heqv
      · exact hlt
      · exfalso
        have hvl : is_valid_rank (plays.getD l ('0', '0')).1 = true :=
          hvalid _ (hgetmem l (by omega))
        have hvk : is_valid_rank (plays.getD k ('0', '0')).1 = true :=
          hvalid _ (hgetmem k hk)
        have hchar : (plays.getD l ('0', '0')).1 = (plays.getD k ('0', '0')).1 :=
          rank_value_inj _ _ hvl hvk heqv
        have hcard : plays.getD l ('0', '0') = plays.getD k ('0', '0') := by
          have hsuits : (plays.getD l ('0', '0')).2 = (plays.getD k ('0', '0')).2 := by
            rw [hlsuit, hsuit]
          exact Prod.ext hchar hsuits
        have hll : l < plays.length := by omega
        rw [List.getD_eq_getElem _ _ hll, List.getD_eq_getElem _ _ hk] at hcard
        have hinj := List.nodup_iff_injective_get.mp hnodup
        have : (⟨l, hll⟩ : Fin plays.length) = ⟨k, hk⟩ := by
          apply hinj
          simpa [List.get_eq_getElem] using hcard
        have : l = k := by
          simpa using congrArg Fin.val this
        exact hlne this

theorem c2_trick_winner_witness :
    winning_seat_in_trick 'S' [('2', 'S'), ('A', 'H'), ('K', 'S'), ('Q', 'S')] < 4 ∧
    ([('2', 'S'), ('A', 'H'), ('K', 'S'), ('Q', 'S')].getD
      (winning_seat_in_trick 'S' [('2', 'S'), ('A', 'H'), ('K', 'S'), ('Q', 'S')])
      ('0', '0')).2 = 'S' := by
  have h := (c2_trick_winner 'S' [('2', 'S'), ('A', 'H'), ('K', 'S'), ('Q', 'S')]
    (by decide) (by decide) (by decide)).2 ⟨('2', 'S'), by decide, rfl⟩
  exact ⟨h.1, h.2.1⟩

/-! ## Per-attempt behaviour of read_and_apply_valid_card -/

/-- The rejection condition of one submitted line, read off the source's
three rejection paths: unparseable token, follow-suit violation, or card not
in the hand. -/
def attempt_rejected (hand : Hand) (isLeader : Bool) (leadSuit : Char) (line : Line) : Bool :=
  match parse_card_token line with
  | none => true
  | some (r, s) =>
    (!isLeader && has_suit_in_hand hand leadSuit && s != leadSuit) ||
      (remove_card_from_hand hand r s).isNone

lemma withOut_nil (res : ReadRes) : res.withOut [] = res := by
  cases res <;> simp [ReadRes.withOut]

lemma withOut_withOut (res : ReadRes) (o1 o2 : Out) :
    (res.withOut o2).withOut o1 = res.withOut (o1 ++ o2) := by
  cases res <;> simp [ReadRes.withOut]

/-- A rejected line never advances the turn: the same seat keeps reading from
the rest of its script, with the same hand and lead suit, after being
re-prompted. -/
lemma read_step_reject (names : Names) (seat : Nat) (isLeader : Bool) (leadSuit : Char)
    (hand : Hand) (line : Line) (rest : Script)
    (hrej : attempt_rejected hand isLeader leadSuit line = true) :
    read_and_apply_valid_card names seat isLeader leadSuit (line :: rest) hand =
      (read_and_apply_valid_card names seat isLeader leadSuit rest hand).withOut
        (send_invalid_and_reprompt seat isLeader leadSuit) := by
  unfold attempt_rejected at hrej
  rw [read_and_apply_valid_card]
  rcases hp : parse_card_token line with _ | ⟨r, s⟩
  · rfl
  · rw [hp] at hrej
    dsimp only at hrej ⊢
    by_cases hb : (!isLeader && has_suit_in_hand hand leadSuit && s != leadSuit) = true
    · rw [if_pos hb]
      have hl : isLeader = false := by
        rcases isLeader with _ | _
        · rfl
        · simp at hb
      rw [hl]
    · rw [if_neg hb]
      have hrem : remove_card_from_hand hand r s = none := by
        rcases (Bool.or_eq_true _ _).mp hrej with h | h
        · exact absurd h hb
        · exact Option.isNone_iff_eq_none.mp h
      rw [hrem]

/-- An accepted line removes the card, establishes the lead suit when the
seat leads, acknowledges with `A` and announces the play. -/
lemma read_step_accept (names : Names) (seat : Nat) (isLeader : Bool) (leadSuit : Char)
    (hand : Hand) (line : Line) (rest : Script) (r s : Char) (hand1 : Hand)
    (hp : parse_card_token line = some (r, s))
    (hcond : (!isLeader && has_suit_in_hand hand leadSuit && s != leadSuit) = false)
    (hrem : remove_card_from_hand hand r s = some hand1) :
    read_and_apply_valid_card names seat isLeader leadSuit (line :: rest) hand =
      .ok rest hand1 (if isLeader then s else leadSuit) r s
        ([(seat, .accept)] ++ announce_play names seat r s) := by
  rw [read_and_apply_valid_card, hp]
  dsimp only
  rw [hcond]
  rw [if_neg Bool.false_ne_true]
  rw [hrem]

/-- For a follower, a parsed card is rejected exactly when the claim's
acceptance condition fails. -/
lemma attempt_rejected_iff_follower (hand : Hand) (leadSuit : Char) (line : Line)
    (r s : Char) (hp : parse_card_token line = some (r, s)) :
    attempt_rejected hand false leadSuit line = true ↔
      ¬ ((r, s) ∈ hand ∧ (has_suit_in_hand hand leadSuit = true → s = leadSuit)) := by
  unfold attempt_rejected
  rw [hp]
  dsimp only
  constructor
  · intro h hacc
    obtain ⟨hmem, hfollow⟩ := hacc
    rcases (Bool.or_eq_true _ _).mp h with hb | hb
    · have hsuit : has_suit_in_hand hand leadSuit = true := by
        rcases hsu : has_suit_in_hand hand leadSuit
        · rw [hsu] at hb; simp at hb
        · rfl
      have hne : (s != leadSuit) = true := by
        rcases hsne : (s != leadSuit)
        · rw [hsne] at hb; simp at hb
        · rfl
      rw [hfollow hsuit] at hne
      simp at hne
    · rw [Option.isNone_iff_eq_none] at hb
      have := (remove_card_isSome_iff hand r s).mpr hmem
      rw [hb] at this
      simp at this
  · intro hn
    rcases hrem : remove_card_from_hand hand r s with _ | hand1
    · simp
    · have hmem : (r, s) ∈ hand :=
        (remove_card_isSome_iff hand r s).mp (by rw [hrem]; rfl)
      have hfollow : ¬ (has_suit_in_hand hand leadSuit = true → s = leadSuit) := by
        intro hf
        exact hn ⟨hmem, hf⟩
      push_neg at hfollow
      obtain ⟨hsuit, hne⟩ := hfollow
      rw [hsuit]
      simp [hne]

/-- C1: for a seat that is not the leader, a submitted card is accepted only
if it parses, is present in the seat's hand tracker and, whenever the hand
tracker holds a card of the led suit, matches the led suit; on acceptance
the card is removed from the hand; any other submission is rejected and the
seat is re-prompted (`I` then `P<leadSuit>`) without the turn advancing: the
same seat continues reading with the same hand and lead suit. -/
theorem c1_follow_suit_validation (names : Names) (seat : Nat) (leadSuit : Char)
    (hand : Hand) (line : Line) (rest : Script) :
    (parse_card_token line = none →
      read_and_apply_valid_card names seat false leadSuit (line :: rest) hand =
        (read_and_apply_valid_card names seat false leadSuit rest hand).withOut
          [(seat, .invalid), (seat, .follow leadSuit)]) ∧
    (∀ r s, parse_card_token line = some (r, s) →
      (((r, s) ∈ hand ∧ (has_suit_in_hand hand leadSuit = true → s = leadSuit)) →
        ∃ hand1, remove_card_from_hand hand r s = some hand1 ∧
          read_and_apply_valid_card names seat false leadSuit (line :: rest) hand =
            .ok rest hand1 leadSuit r s
              ([(seat, .accept)] ++ announce_play names seat r s)) ∧
      (¬ ((r, s) ∈ hand ∧ (has_suit_in_hand hand leadSuit = true → s = leadSuit)) →
        read_and_apply_valid_card names seat false leadSuit (line :: rest) hand =
          (read_and_apply_valid_card names seat false leadSuit rest hand).withOut
            [(seat, .invalid), (seat, .follow leadSuit)])) := by
  constructor
  · intro hp
    have := read_step_reject names seat false leadSuit hand line rest
      (by unfold attempt_rejected; rw [hp])
    rw [this]
    rfl
  · intro r s hp
    constructor
    · rintro ⟨hmem, hfollow⟩
      have hsome : (remove_card_from_hand hand r s).isSome = true :=
        (remove_card_isSome_iff hand r s).mpr hmem
      obtain ⟨hand1, hh⟩ := Option.isSome_iff_exists.mp hsome
      refine ⟨hand1, hh, ?_⟩
      have hcond : (!false && has_suit_in_hand hand leadSuit && s != leadSuit) = false := by
        rcases hsu : has_suit_in_hand hand leadSuit
        · simp [hsu]
        · rw [hfollow hsu]
          simp
      have := read_step_accept names seat false leadSuit hand line rest r s hand1 hp hcond hh
      rw [this]
      norm_num
    · intro hn
      have hrej : attempt_rejected hand false leadSuit line = true :=
        (attempt_rejected_iff_follower hand leadSuit line r s hp).mpr hn
      have := read_step_reject names seat false leadSuit hand line rest hrej
      rw [this]
      rfl

theorem c1_follow_suit_validation_witness :
    ∃ hand1, remove_card_from_hand [('2', 'S'), ('3', 'H')] '2' 'S' = some hand1 ∧
      read_and_apply_valid_card exNamesNone 1 false 'S' [['2', 'S'], ['4', 'C']]
          [('2', 'S'), ('3', 'H')] =
        .ok [['4', 'C']] hand1 'S' '2' 'S'
          ([(1, .accept)] ++ announce_play exNamesNone 1 '2' 'S') :=
  ((c1_follow_suit_validation exNamesNone 1 'S' [('2', 'S'), ('3', 'H')]
    ['2', 'S'] [['4', 'C']]).2 '2' 'S' (by decide)).1 ⟨by decide, by decide⟩

/-! ## C10: re-prompt behaviour on invalid input -/

/-- C10: invalid input never advances the turn and is retried without limit:
any number of rejected lines is absorbed, each answered only by the
re-prompt, before reading continues with the same hand and lead suit; the
leader's re-prompt is the bare `L` lead prompt with no distinct invalid
notice, while a follower receives the explicit `I` invalid notice followed
by the `P<leadSuit>` follow prompt. -/
theorem c10_invalid_reprompt (names : Names) (seat : Nat) (leadSuit : Char) :
    (∀ isLeader : Bool, send_invalid_and_reprompt seat isLeader leadSuit =
      if isLeader then [(seat, .lead)] else [(seat, .invalid), (seat, .follow leadSuit)]) ∧
    (∀ (isLeader : Bool) (hand : Hand) (bads : List Line) (rest : Script),
      (∀ l ∈ bads, attempt_rejected hand isLeader leadSuit l = true) →
      read_and_apply_valid_card names seat isLeader leadSuit (bads ++ rest) hand =
        (read_and_apply_valid_card names seat isLeader leadSuit rest hand).withOut
          (bads.flatMap (fun _ => send_invalid_and_reprompt seat isLeader leadSuit))) := by
  constructor
  · intro isLeader
    rfl
  · intro isLeader hand bads
    induction bads with
    | nil =>
      intro rest hb
      rw [List.nil_append, List.flatMap_nil, withOut_nil]
    | cons l bads ih =>
      intro rest hb
      rw [List.cons_append]
      rw [read_step_reject names seat isLeader leadSuit hand l (bads ++ rest)
        (hb l (List.mem_cons_self l bads))]
      rw [ih rest (fun x hx => hb x (List.mem_cons_of_mem l hx))]
      rw [withOut_withOut, List.flatMap_cons]

theorem c10_invalid_reprompt_witness :
    read_and_apply_valid_card exNamesNone 0 true 'S'
        ([['Z'], ['Z'], ['Z']] ++ [['2', 'S']]) [('2', 'S')] =
      (read_and_apply_valid_card exNamesNone 0 true 'S' [['2', 'S']] [('2', 'S')]).withOut
        ([['Z'], ['Z'], ['Z']].flatMap (fun _ => send_invalid_and_reprompt 0 true 'S')) :=
  (c10_invalid_reprompt exNamesNone 0 'S').2 true [('2', 'S')] [['Z'], ['Z'], ['Z']]
    [['2', 'S']] (by decide)

/-! ## C6: disconnect mid-trick -/

/-- A disconnected read names the seat it was reading from and its output
ends with that seat's disconnect block (notice plus game-over marker to each
other seat). -/
lemma read_disc_shape (names : Names) (seat : Nat) (isLeader : Bool) (leadSuit : Char) :
    ∀ (script : Script) (hand : Hand) (d : Nat) (o : Out),
      read_and_apply_valid_card names seat isLeader leadSuit script hand = .disc d o →
      d = seat ∧ ∃ pre, o = pre ++ handle_disconnect_early names seat := by
  intro script
  induction script with
  | nil =>
    intro hand d o h
    rw [read_and_apply_valid_card] at h
    injection h with h1 h2
    exact ⟨h1.symm, [], h2.symm⟩
  | cons line rest ih =>
    intro hand d o h
    rw [read_and_apply_valid_card] at h
    rcases hp : parse_card_token line with _ | ⟨r, s⟩
    · rw [hp] at h
      dsimp only at h
      rcases hrec : read_and_apply_valid_card names seat isLeader leadSuit rest hand with
        ⟨d2, o2⟩ | _
      · rw [hrec] at h
        unfold ReadRes.withOut at h
        injection h with h1 h2
        obtain ⟨hd2, pre, hpre⟩ := ih hand d2 o2 hrec
        subst h1
        exact ⟨hd2, send_invalid_and_reprompt seat isLeader leadSuit ++ pre,
          by rw [← h2, hpre, List.append_assoc]⟩
      · rw [hrec] at h
        unfold ReadRes.withOut at h
        exact absurd h (by simp)
    · rw [hp] at h
      dsimp only at h
      by_cases hb : (!isLeader && has_suit_in_hand hand leadSuit && s != leadSuit) = true
      · rw [if_pos hb] at h
        rcases hrec : read_and_apply_valid_card names seat isLeader leadSuit rest hand with
          ⟨d2, o2⟩ | _
        · rw [hrec] at h
          unfold ReadRes.withOut at h
          injection h with h1 h2
          obtain ⟨hd2, pre, hpre⟩ := ih hand d2 o2 hrec
          subst h1
          exact ⟨hd2, send_invalid_and_reprompt seat false leadSuit ++ pre,
            by rw [← h2, hpre, List.append_assoc]⟩
        · rw [hrec] at h
          unfold ReadRes.withOut at h
          exact absurd h (by simp)
      · rw [if_neg hb] at h
        rcases hrem : remove_card_from_hand hand r s with _ | hand1
        · rw [hrem] at h
          dsimp only at h
          rcases hrec : read_and_apply_valid_card names seat isLeader leadSuit rest hand with
            ⟨d2, o2⟩ | _
          · rw [hrec] at h
            unfold ReadRes.withOut at h
            injection h with h1 h2
            obtain ⟨hd2, pre, hpre⟩ := ih hand d2 o2 hrec
            subst h1
            exact ⟨hd2, send_invalid_and_reprompt seat isLeader leadSuit ++ pre,
              by rw [← h2, hpre, List.append_assoc]⟩
          · rw [hrec] at h
            unfold ReadRes.withOut at h
            exact absurd h (by simp)
        · rw [hrem] at h
          dsimp only at h
          exact absurd h (by simp)

/-- A terminated trick's output ends with the disconnected seat's block. -/
lemma trick_loop_term_shape (names : Names) (leaderSeat : Nat) :
    ∀ (offs : List Nat) (scripts : Nat → Script) (hands : Nat → Hand)
      (leadSuit : Char) (plays : List Card) (d : Nat) (o : Out),
      trick_loop names leaderSeat offs scripts hands leadSuit plays = .term d o →
      ∃ pre, o = pre ++ handle_disconnect_early names d := by
  intro offs
  induction offs with
  | nil =>
    intro scripts hands leadSuit plays d o h
    rw [trick_loop] at h
    exact absurd h (by simp)
  | cons offset offs ih =>
    intro scripts hands leadSuit plays d o h
    rw [trick_loop] at h
    rcases hread : read_and_apply_valid_card names ((leaderSeat + offset) % 4) (offset == 0)
        leadSuit (scripts ((leaderSeat + offset) % 4)) (hands ((leaderSeat + offset) % 4)) with
      ⟨d2, o2⟩ | ⟨rest, hand1, lead1, r, s, o2⟩
    · rw [hread] at h
      dsimp only at h
      injection h with h1 h2
      obtain ⟨hd2, pre, hpre⟩ := read_disc_shape names ((leaderSeat + offset) % 4) (offset == 0)
        leadSuit (scripts ((leaderSeat + offset) % 4)) (hands ((leaderSeat + offset) % 4))
        d2 o2 hread
      subst h1
      rw [hd2]
      exact ⟨send_lead_or_play_prompt ((leaderSeat + offset) % 4) (offset == 0) leadSuit ++ pre,
        by rw [← h2, hpre, List.append_assoc]⟩
    · rw [hread] at h
      dsimp only at h
      rcases hrec : trick_loop names leaderSeat offs
          (fun j => if j = (leaderSeat + offset) % 4 then rest else scripts j)
          (fun j => if j = (leaderSeat + offset) % 4 then hand1 else hands j)
          lead1 (plays ++ [(r, s)]) with
        ⟨d3, o3⟩ | _
      · rw [hrec] at h
        injection h with h1 h2
        obtain ⟨pre, hpre⟩ := ih _ _ _ _ d3 o3 hrec
        subst h1
        refine ⟨send_lead_or_play_prompt ((leaderSeat + offset) % 4) (offset == 0) leadSuit ++
          o2 ++ pre, ?_⟩
        rw [← h2, hpre]
        simp [List.append_assoc]
      · rw [hrec] at h
        exact absurd h (by simp)

/-- Termination properties of the trick loop with a disconnect. -/
lemma play_tricks_loop_term (names : Names) :
    ∀ (n : Nat) (scripts : Nat → Script) (hands : Nat → Hand) (leaderSeat t1 t2 d : Nat),
      (play_tricks_loop names n scripts hands leaderSeat t1 t2).discSeat = some d →
      (play_tricks_loop names n scripts hands leaderSeat t1 t2).completed = false ∧
      (play_tricks_loop names n scripts hands leaderSeat t1 t2).termInc = 1 ∧
      (play_tricks_loop names n scripts hands leaderSeat t1 t2).team1 +
        (play_tricks_loop names n scripts hands leaderSeat t1 t2).team2 =
        t1 + t2 + (play_tricks_loop names n scripts hands leaderSeat t1 t2).tricksInc ∧
      ∃ pre, (play_tricks_loop names n scripts hands leaderSeat t1 t2).out =
        pre ++ handle_disconnect_early names d := by
  intro n
  induction n with
  | zero =>
    intro scripts hands leaderSeat t1 t2 d hd
    rw [play_tricks_loop] at hd
    exact absurd hd (by simp)
  | succ n ih =>
    intro scripts hands leaderSeat t1 t2 d hd
    rw [play_tricks_loop] at hd ⊢
    rcases htr : play_single_trick names scripts hands leaderSeat with
      ⟨dseat, o⟩ | ⟨scripts2, hands2, w, o⟩
    · rw [htr] at hd
      dsimp only at hd ⊢
      have hds : dseat = d := by
        injection hd with h1
      subst hds
      obtain ⟨pre, hpre⟩ := trick_loop_term_shape names leaderSeat [0, 1, 2, 3]
        scripts hands (Char.ofNat 0) [] dseat o htr
      exact ⟨rfl, rfl, by omega, pre, hpre⟩
    · rw [htr] at hd
      dsimp only at hd ⊢
      by_cases hw : seat_to_team w = 0
      · simp only [if_pos hw] at hd ⊢
        obtain ⟨h1, h2, h3, pre, hpre⟩ := ih scripts2 hands2 w (t1 + 1) t2 d hd
        exact ⟨h1, h2, by omega, o ++ pre, by rw [hpre, List.append_assoc]⟩
      · simp only [if_neg hw] at hd ⊢
        obtain ⟨h1, h2, h3, pre, hpre⟩ := ih scripts2 hands2 w t1 (t2 + 1) d hd
        exact ⟨h1, h2, by omega, o ++ pre, by rw [hpre, List.append_assoc]⟩

/-- C6: when a read from seat `d` fails mid-trick, the game (the `play_tricks`
run) ends: the output stream ends with, for each of the other three seats, a
disconnect notice naming the dropped player followed by a game-over marker,
and nothing after it (no further tricks are processed); the terminated-games
counter delta is exactly 1; and the tricks-played counter delta equals the
sum of the team credits, so the interrupted trick neither counts nor credits
any team. -/
theorem c6_disconnect_ends_game (names : Names) (scripts : Nat → Script)
    (hands : Nat → Hand) (d : Nat)
    (hd : (play_tricks names scripts hands).discSeat = some d) :
    (play_tricks names scripts hands).completed = false ∧
    (play_tricks names scripts hands).termInc = 1 ∧
    (play_tricks names scripts hands).tricksInc =
      (play_tricks names scripts hands).team1 + (play_tricks names scripts hands).team2 ∧
    ∃ pre, (play_tricks names scripts hands).out =
      pre ++ handle_disconnect_early names d := by
  obtain ⟨h1, h2, h3, pre, hpre⟩ := play_tricks_loop_term names 13 scripts hands 0 0 0 d hd
  have h3' : (play_tricks names scripts hands).team1 + (play_tricks names scripts hands).team2 =
      0 + 0 + (play_tricks names scripts hands).tricksInc := h3
  exact ⟨h1, h2, by omega, pre, hpre⟩

theorem c6_disconnect_ends_game_witness :
    (play_tricks exNamesNone exScriptsEmpty exHands).termInc = 1 ∧
    (play_tricks exNamesNone exScriptsEmpty exHands).tricksInc =
      (play_tricks exNamesNone exScriptsEmpty exHands).team1 +
        (play_tricks exNamesNone exScriptsEmpty exHands).team2 := by
  have h := c6_disconnect_ends_game exNamesNone exScriptsEmpty exHands 0 (by decide)
  exact ⟨h.2.1, h.2.2.1⟩

/-! ## C7: reseating determinism -/

/-- The exchange sort only looks at comparison outcomes, so for any strict
comparison induced by an injective rank function on the four seats it agrees
with the stable insertion sort (checked over all 256 rank functions). -/
lemma reseat_matches_rank :
    ∀ g : Fin 4 → Fin 4, Function.Injective g →
      reseat_order_by (fun a b => decide (g a < g b)) =
        sort_by (fun i j => decide (g i < g j) || (g i == g j && decide (i.val ≤ j.val)))
          [0, 1, 2, 3] := by
  decide

/-- Rank of a name among the four: how many seats carry a strictly smaller
name. -/
def name_rank (names : Fin 4 → List Char) (a : Fin 4) : Fin 4 :=
  ⟨(Finset.univ.filter (fun k => names k < names a)).card, by
    have hsub : (Finset.univ.filter (fun k => names k < names a)) ⊆ Finset.univ.erase a := by
      intro k hk
      rw [Finset.mem_filter] at hk
      refine Finset.mem_erase.mpr ⟨?_, Finset.mem_univ k⟩
      rintro rfl
      exact lt_irrefl _ hk.2
    have := Finset.card_le_card hsub
    have herase : (Finset.univ.erase a).card = 3 := by
      rw [Finset.card_erase_of_mem (Finset.mem_univ a)]
      simp
    omega⟩

lemma name_rank_lt_iff (names : Fin 4 → List Char) (a b : Fin 4) :
    names a < names b ↔ name_rank names a < name_rank names b := by
  constructor
  · intro hab
    have hsub : (Finset.univ.filter (fun k => names k < names a)) ⊆
        Finset.univ.filter (fun k => names k < names b) := by
      intro k hk
      rw [Finset.mem_filter] at hk ⊢
      exact ⟨hk.1, lt_trans hk.2 hab⟩
    have hss : (Finset.univ.filter (fun k => names k < names a)) ⊂
        Finset.univ.filter (fun k => names k < names b) := by
      refine (Finset.ssubset_iff_of_subset hsub).mpr ⟨a, ?_, ?_⟩
      · rw [Finset.mem_filter]
        exact ⟨Finset.mem_univ a, hab⟩
      · rw [Finset.mem_filter]
        rintro ⟨-, hcon⟩
        exact lt_irrefl _ hcon
    exact Finset.card_lt_card hss
  · intro hr
    rcases lt_trichotomy (names a) (names b) with h | h | h
    · exact h
    · exfalso
      have : (Finset.univ.filter (fun k => names k < names a)) =
          Finset.univ.filter (fun k => names k < names b) := by
        apply Finset.filter_congr
        intro k hk
        rw [h]
      have : name_rank names a = name_rank names b := by
        unfold name_rank
        congr 1
        rw [this]
      rw [this] at hr
      exact lt_irrefl _ hr
    · exfalso
      have hba : name_rank names b < name_rank names a := by
        have hsub : (Finset.univ.filter (fun k => names k < names b)) ⊆
            Finset.univ.filter (fun k => names k < names a) := by
          intro k hk
          rw [Finset.mem_filter] at hk ⊢
          exact ⟨hk.1, lt_trans hk.2 h⟩
        have hss : (Finset.univ.filter (fun k => names k < names b)) ⊂
            Finset.univ.filter (fun k => names k < names a) := by
          refine (Finset.ssubset_iff_of_subset hsub).mpr ⟨b, ?_, ?_⟩
          · rw [Finset.mem_filter]
            exact ⟨Finset.mem_univ b, h⟩
          · rw [Finset.mem_filter]
            rintro ⟨-, hcon⟩
            exact lt_irrefl _ hcon
        exact Finset.card_lt_card hss
      exact absurd (lt_trans hr hba) (lt_irrefl _)

lemma name_rank_injective (names : Fin 4 → List Char)
    (hdist : ∀ a b : Fin 4, a ≠ b → names a ≠ names b) :
    Function.Injective (name_rank names) := by
  intro a b hab
  by_contra hne
  rcases lt_trichotomy (names a) (names b) with h | h | h
  · rw [name_rank_lt_iff names a b] at h
    rw [hab] at h
    exact lt_irrefl _ h
  · exact hdist a b hne h
  · rw [name_rank_lt_iff names b a] at h
    rw [hab] at h
    exact lt_irrefl _ h

/-- C7 counterexample: two players joining as `B`, `B`, `A`, `C` (in that
join order) are reseated as join indices `[2, 1, 0, 3]` — the two equally
named players end in reversed join order — whereas a name sort with ties
broken by join order yields `[2, 0, 1, 3]`.  The exchange sort is not
stable. -/
theorem c7_reseat_counterexample :
    reseat_order exNamesDup ≠ claim_seating exNamesDup := by
  decide

/-- C7 amended: reseating is deterministic in the (name, join-order) data,
and when the four names are pairwise distinct the final seats 0-3 are the
players sorted ascending by name, exactly as the claim states; when two
players share a name the relative order of the tied pair may be reversed,
so the claim's tie-break by join order does not hold in general. -/
theorem c7_reseat_amended (names : Fin 4 → List Char)
    (hdist : ∀ a b : Fin 4, a ≠ b → names a ≠ names b) :
    reseat_order names = claim_seating names := by
  have hinj : Function.Injective (name_rank names) := name_rank_injective names hdist
  have h1 : (fun a b => decide (names a < names b)) =
      (fun a b => decide (name_rank names a < name_rank names b)) := by
    funext a b
    rw [decide_eq_decide]
    exact name_rank_lt_iff names a b
  have hbeq : ∀ i j : Fin 4, (names i == names j) = (name_rank names i == name_rank names j) := by
    intro i j
    by_cases h : i = j
    · subst h
      simp
    · have hne : names i ≠ names j := hdist i j h
      have hgne : name_rank names i ≠ name_rank names j := fun he => h (hinj he)
      simp [hne, hgne]
  have h2 : (fun i j : Fin 4 => decide (names i < names j) ||
        (names i == names j && decide (i.val ≤ j.val))) =
      (fun i j : Fin 4 => decide (name_rank names i < name_rank names j) ||
        (name_rank names i == name_rank names j && decide (i.val ≤ j.val))) := by
    funext i j
    rw [hbeq i j, decide_eq_decide.mpr (name_rank_lt_iff names i j)]
  rw [reseat_order, h1, claim_seating, h2]
  exact reseat_matches_rank (name_rank names) hinj

theorem c7_reseat_amended_witness :
    reseat_order exNamesA = claim_seating exNamesA :=
  c7_reseat_amended exNamesA (by decide)

/-! ## C4: registry invariants -/

/-- Well-formedness of one lobby: at most 4 players, a 4-slot seat array,
and join-order seats without gaps or duplicates (slot `i` is occupied exactly
when `i` is below the player count). -/
def lobby_ok (g : Lobby) : Prop :=
  g.playerCount ≤ 4 ∧ g.seats.length = 4 ∧
    ∀ i, i < 4 → ((g.seats.getD i none).isSome ↔ i < g.playerCount)

/-- Registry invariant: every lobby is well formed, lobby ids are below the
allocation counter, and ids are pairwise distinct. -/
def reg_ok (reg : List Lobby) (nextId : Nat) : Prop :=
  (∀ g ∈ reg, lobby_ok g ∧ g.gid < nextId) ∧ (reg.map (fun g => g.gid)).Nodup


lemma getElem?_eraseIdx_general {α : Type} :
    ∀ (l : List α) (s j : Nat), (l.eraseIdx s)[j]? = if j < s then l[j]? else l[j + 1]? := by
  intro l
  induction l with
  | nil =>
    intro s j
    simp [List.eraseIdx]
  | cons a l ih =>
    intro s j
    cases s with
    | zero =>
      rw [List.eraseIdx]
      simp
    | succ s =>
      rw [List.eraseIdx]
      cases j with
      | zero => simp
      | succ j =>
        rw [List.getElem?_cons_succ, ih s j]
        by_cases hj : j < s
        · have hj2 : j + 1 < s + 1 := by omega
          simp [hj, hj2, List.getElem?_cons_succ]
        · have hj2 : ¬ (j + 1 < s + 1) := by omega
          simp [hj, hj2, List.getElem?_cons_succ]

lemma goc_preserves (reg : List Lobby) (nextId : Nat) (gameName : String)
    (h : reg_ok reg nextId) :
    reg_ok (get_or_create_pending_game reg nextId gameName).1
      (get_or_create_pending_game reg nextId gameName).2.1 := by
  rcases hf : reg.find? (fun g => g.gameName == gameName) with _ | g
  · unfold get_or_create_pending_game
    rw [hf]
    dsimp only
    obtain ⟨hall, hnd⟩ := h
    refine ⟨?_, ?_⟩
    · intro g hg
      rcases List.mem_cons.mp hg with rfl | hg
      · refine ⟨⟨by dsimp only; omega, rfl, ?_⟩, by dsimp only; omega⟩
        intro i hi
        interval_cases i <;> simp
      · obtain ⟨hok, hlt⟩ := hall g hg
        exact ⟨hok, by omega⟩
    · rw [List.map_cons, List.nodup_cons]
      refine ⟨?_, hnd⟩
      intro hmem
      rw [List.mem_map] at hmem
      obtain ⟨g, hg, hgid⟩ := hmem
      have := (hall g hg).2
      dsimp only at hgid
      omega
  · unfold get_or_create_pending_game
    rw [hf]
    exact h

lemma update_lobby_gid_map (reg : List Lobby) (gid : Nat) (f : Lobby → Lobby)
    (hf : ∀ g, (f g).gid = g.gid) :
    (update_lobby reg gid f).map (fun g => g.gid) = reg.map (fun g => g.gid) := by
  unfold update_lobby
  rw [List.map_map]
  apply List.map_congr_left
  intro g hg
  by_cases hgid : (g.gid == gid) = true
  · simp only [Function.comp_apply, if_pos hgid]
    exact hf g
  · simp only [Function.comp_apply]
    rw [if_neg hgid]

lemma mem_update_lobby (reg : List Lobby) (gid : Nat) (f : Lobby → Lobby) (g1 : Lobby)
    (hg1 : g1 ∈ update_lobby reg gid f) :
    ∃ g0 ∈ reg, (g0.gid = gid ∧ g1 = f g0) ∨ g1 = g0 := by
  unfold update_lobby at hg1
  rw [List.mem_map] at hg1
  obtain ⟨g0, hg0, heq⟩ := hg1
  by_cases hgid : (g0.gid == gid) = true
  · rw [if_pos hgid] at heq
    exact ⟨g0, hg0, Or.inl ⟨by simpa using hgid, heq.symm⟩⟩
  · rw [if_neg hgid] at heq
    exact ⟨g0, hg0, Or.inr heq.symm⟩

lemma add_preserves (reg : List Lobby) (nextId gid : Nat) (pname : String) (fd : Nat)
    (h : reg_ok reg nextId) :
    reg_ok (add_player_to_pending_game reg gid pname fd).1 nextId := by
  obtain ⟨hall, hnd⟩ := h
  rcases hf : reg.find? (fun g => g.gid == gid) with _ | g
  · unfold add_player_to_pending_game
    rw [hf]
    exact ⟨hall, hnd⟩
  · unfold add_player_to_pending_game
    rw [hf]
    dsimp only
    by_cases hfull : g.playerCount ≥ 4
    · rw [if_pos hfull]
      exact ⟨hall, hnd⟩
    · rw [if_neg hfull]
      have hgmem : g ∈ reg := List.mem_of_find?_eq_some hf
      have hggid : g.gid = gid := by
        have := List.find?_some hf
        simpa using this
      constructor
      · intro g1 hg1
        obtain ⟨g0, hg0, hcase⟩ := mem_update_lobby _ _ _ g1 hg1
        rcases hcase with ⟨hgid0, rfl⟩ | rfl
        · have hg0g : g0 = g := by
            apply List.inj_on_of_nodup_map hnd hg0 hgmem
            rw [hgid0, hggid]
          subst hg0g
          obtain ⟨⟨hc4, hlen, hgap⟩, hlt⟩ := hall g0 hg0
          refine ⟨⟨by dsimp only; omega, ?_, ?_⟩, by dsimp only; exact hlt⟩
          · dsimp only
            rw [List.length_set]
            exact hlen
          · intro i hi
            dsimp only
            rw [List.getD_eq_getElem?_getD, List.getElem?_set]
            by_cases hie : g0.playerCount = i
            · rw [if_pos hie, if_pos (by omega)]
              simp
              omega
            · rw [if_neg hie, ← List.getD_eq_getElem?_getD]
              rw [hgap i hi]
              omega
        · exact hall _ hg0
      · dsimp only
        have hmap := update_lobby_gid_map reg gid (fun g0 => { g0 with seats := g0.seats.set g0.playerCount (some (pname, fd)), playerCount := g0.playerCount + 1 }) (fun g0 => rfl)
        rw [hmap]
        exact hnd

lemma unlink_sublist (gid : Nat) : ∀ reg : List Lobby,
    (unlink_pending_game reg gid).Sublist reg := by
  intro reg
  induction reg with
  | nil =>
    rw [unlink_pending_game]
  | cons g gs ih =>
    rw [unlink_pending_game]
    by_cases hg : (g.gid == gid) = true
    · rw [if_pos hg]
      exact (List.Sublist.refl gs).cons g
    · rw [if_neg hg]
      exact ih.cons₂ g

lemma unlink_preserves (reg : List Lobby) (nextId gid : Nat)
    (h : reg_ok reg nextId) : reg_ok (unlink_pending_game reg gid) nextId := by
  obtain ⟨hall, hnd⟩ := h
  have hsub := unlink_sublist gid reg
  constructor
  · intro g hg
    exact hall g (hsub.mem hg)
  · exact (hsub.map (fun g => g.gid)).nodup hnd

lemma evict_preserves (reg : List Lobby) (nextId gid s : Nat)
    (h : reg_ok reg nextId) : reg_ok (evict_seat reg gid s) nextId := by
  obtain ⟨hall, hnd⟩ := h
  unfold evict_seat
  constructor
  · intro g1 hg1
    obtain ⟨g0, hg0, hcase⟩ := mem_update_lobby _ _ _ g1 hg1
    obtain ⟨⟨hc4, hlen, hgap⟩, hlt⟩ := hall g0 hg0
    rcases hcase with ⟨hgid0, rfl⟩ | rfl
    · by_cases hs : s < g0.playerCount
      · rw [if_pos hs]
        refine ⟨⟨by dsimp only; omega, ?_, ?_⟩, by dsimp only; exact hlt⟩
        · dsimp only
          rw [List.length_append, List.length_eraseIdx, hlen, if_pos (by omega)]
          rfl
        · intro i hi
          dsimp only
          have hlen2 : (g0.seats.eraseIdx s).length = 3 := by
            rw [List.length_eraseIdx, hlen, if_pos (by omega)]
          rw [List.getD_eq_getElem?_getD, List.getElem?_append]
          by_cases hi3 : i < 3
          · rw [if_pos (by omega), getElem?_eraseIdx_general]
            by_cases his : i < s
            · rw [if_pos his, ← List.getD_eq_getElem?_getD, hgap i hi]
              omega
            · rw [if_neg his, ← List.getD_eq_getElem?_getD, hgap (i + 1) (by omega)]
              omega
          · have hi3e : i = 3 := by omega
            rw [if_neg (by omega), hlen2, hi3e]
            simp
            omega
      · rw [if_neg hs]
        exact ⟨⟨hc4, hlen, hgap⟩, hlt⟩
    · exact ⟨⟨hc4, hlen, hgap⟩, hlt⟩
  · rw [update_lobby_gid_map reg gid _ (fun g0 => by split <;> rfl)]
    exact hnd

lemma worker_step_preserves (reg : List Lobby) (nextId : Nat) (w : Worker)
    (h : reg_ok reg nextId) :
    reg_ok (worker_step reg nextId w).1 (worker_step reg nextId w).2.1 := by
  obtain ⟨pname, gname, fd, pc⟩ := w
  cases pc with
  | ready =>
    have hgoc := goc_preserves reg nextId gname h
    rcases hgoc2 : get_or_create_pending_game reg nextId gname with ⟨reg1, next1, gid⟩
    rw [hgoc2] at hgoc
    unfold worker_step
    dsimp only
    rw [hgoc2]
    exact hgoc
  | joined gid =>
    have hadd := add_preserves reg nextId gid pname fd h
    rcases hadd2 : add_player_to_pending_game reg gid pname fd with ⟨reg1, idx⟩
    rw [hadd2] at hadd
    unfold worker_step
    dsimp only
    rw [hadd2]
    exact hadd
  | seated gid idx =>
    unfold worker_step
    dsimp only
    by_cases hidx : (idx == some 3) = true
    · rw [if_pos hidx]
      exact unlink_preserves reg nextId gid h
    · rw [if_neg hidx]
      exact h
  | finished => exact h

lemma reg_step_preserves (st : RegSys) (a : RegAct)
    (h : reg_ok st.reg st.nextId) : reg_ok (reg_step st a).reg (reg_step st a).nextId := by
  cases a with
  | work i =>
    unfold reg_step
    dsimp only
    rcases hw : st.workers.get? i with _ | w
    · exact h
    · dsimp only
      exact worker_step_preserves st.reg st.nextId w h
  | evict gid s =>
    unfold reg_step
    dsimp only
    exact evict_preserves st.reg st.nextId gid s h

lemma foldl_reg_step_ok (acts : List RegAct) :
    ∀ st : RegSys, reg_ok st.reg st.nextId →
      reg_ok (acts.foldl reg_step st).reg (acts.foldl reg_step st).nextId := by
  induction acts with
  | nil =>
    intro st h
    exact h
  | cons a acts ih =>
    intro st h
    rw [List.foldl_cons]
    exact ih (reg_step st a) (reg_step_preserves st a h)

/-- Every state reachable by any schedule from any worker pool satisfies the
registry invariant. -/
lemma reg_run_ok (ws : List Worker) (acts : List RegAct) :
    reg_ok (reg_run ws acts).reg (reg_run ws acts).nextId := by
  unfold reg_run
  exact foldl_reg_step_ok acts _ ⟨by simp, by simp⟩

lemma find?_unlink_none (gid : Nat) : ∀ reg : List Lobby,
    (reg.map (fun g => g.gid)).Nodup →
    (unlink_pending_game reg gid).find? (fun g => g.gid == gid) = none := by
  intro reg
  induction reg with
  | nil =>
    intro hnd
    rw [unlink_pending_game]
    rfl
  | cons g gs ih =>
    intro hnd
    rw [List.map_cons, List.nodup_cons] at hnd
    obtain ⟨hnotin, hnd⟩ := hnd
    rw [unlink_pending_game]
    by_cases hg : (g.gid == gid) = true
    · rw [if_pos hg]
      rw [List.find?_eq_none]
      intro x hx hpx
      apply hnotin
      rw [List.mem_map]
      refine ⟨x, hx, ?_⟩
      have hx2 : x.gid = gid := by simpa using hpx
      have hg2 : g.gid = gid := by simpa using hg
      rw [hx2, hg2]
    · rw [if_neg hg]
      rw [List.find?_cons_of_neg _ (by simpa using hg)]
      exact ih hnd

/-- C4 amended: in every reachable registry state, every lobby has at most 4
seats with gap-free, duplicate-free join-order indices; a lobby whose 4th
seat has filled accepts no 5th seat (seating fails and leaves the registry
unchanged); a successful seating returns the join-order index, which is the
lobby's player count at that moment; and once the seating worker performs
its unlink step the lobby is unreachable.  The lobby does not, however,
leave the registry at the instant the 4th seat fills: the unlink is a later,
separate critical section, and until it runs a find-or-create can still
return the full lobby (see the counterexample). -/
theorem c4_registry_amended :
    (∀ (ws : List Worker) (acts : List RegAct) (g : Lobby),
      g ∈ (reg_run ws acts).reg →
      g.playerCount ≤ 4 ∧ g.seats.length = 4 ∧
        ∀ i, i < 4 → ((g.seats.getD i none).isSome ↔ i < g.playerCount)) ∧
    (∀ (reg : List Lobby) (gid : Nat) (pname : String) (fd : Nat) (g : Lobby),
      reg.find? (fun g0 => g0.gid == gid) = some g → 4 ≤ g.playerCount →
      add_player_to_pending_game reg gid pname fd = (reg, none)) ∧
    (∀ (reg : List Lobby) (gid : Nat) (pname : String) (fd : Nat) (i : Nat),
      (add_player_to_pending_game reg gid pname fd).2 = some i →
      ∃ g, reg.find? (fun g0 => g0.gid == gid) = some g ∧ i = g.playerCount ∧ i < 4) ∧
    (∀ (ws : List Worker) (acts : List RegAct) (gid : Nat),
      (unlink_pending_game (reg_run ws acts).reg gid).find?
        (fun g => g.gid == gid) = none) := by
  refine ⟨?_, ?_, ?_, ?_⟩
  · intro ws acts g hg
    exact ((reg_run_ok ws acts).1 g hg).1
  · intro reg gid pname fd g hfound hfull
    unfold add_player_to_pending_game
    rw [hfound]
    dsimp only
    rw [if_pos (by omega)]
  · intro reg gid pname fd i hadd
    rcases hfound : reg.find? (fun g0 => g0.gid == gid) with _ | g
    · unfold add_player_to_pending_game at hadd
      rw [hfound] at hadd
      exact absurd hadd (by simp)
    · unfold add_player_to_pending_game at hadd
      rw [hfound] at hadd
      dsimp only at hadd
      by_cases hfull : g.playerCount ≥ 4
      · rw [if_pos hfull] at hadd
        exact absurd hadd (by simp)
      · rw [if_neg hfull] at hadd
        dsimp only at hadd
        have : g.playerCount = i := by injection hadd
        exact ⟨g, hfound, this.symm, by omega⟩
  · intro ws acts gid
    exact find?_unlink_none gid (reg_run ws acts).reg (reg_run_ok ws acts).2

/-- A concrete full lobby used to exercise the amended theorem. -/
def exFullLobby : Lobby :=
  { gid := 0, gameName := "g", playerCount := 4,
    seats := [some ("a", 1), some ("b", 2), some ("c", 3), some ("d", 4)] }

theorem c4_registry_amended_witness :
    add_player_to_pending_game [exFullLobby] 0 "e" 9 = ([exFullLobby], none) :=
  c4_registry_amended.2.1 [exFullLobby] 0 "e" 9 exFullLobby (by decide) (by decide)

/-- Worker pool for the counterexample: five workers all joining game
`"g"`. -/
def exWorkers : List Worker :=
  (List.range 5).map (fun k => { pname := "p", gname := "g", fd := k, pc := WPC.ready })

/-- Schedule: workers 0-3 each run find-or-create and seat (worker 3 fills
the 4th seat but has not yet run its unlink step), then worker 4 runs
find-or-create. -/
def exActs : List RegAct :=
  [RegAct.work 0, RegAct.work 0, RegAct.work 1, RegAct.work 1, RegAct.work 2,
   RegAct.work 2, RegAct.work 3, RegAct.work 3, RegAct.work 4]

/-- C4 counterexample: a reachable state in which a lobby with all 4 seats
filled is still in the registry and is returned by name lookup, refuting
both "a lobby that is still reachable via lookup has at most 3 seats
filled" and "the instant its 4th seat fills the lobby becomes unreachable":
the filling worker's unlink is a separate critical section that has not yet
run, and the fifth worker's find-or-create meanwhile finds the full lobby. -/
theorem c4_registry_counterexample :
    (((reg_run exWorkers exActs).reg.find? (fun g => g.gameName == "g")).map
      (fun g => g.playerCount)) = some 4 ∧
    ¬ (∀ g ∈ (reg_run exWorkers exActs).reg, g.playerCount ≤ 3) := by
  constructor
  · decide
  · decide

end Rats
